import Mathlib

/-!
Verification of the Pleiades–Wikidata reconciliation script
(`scripts/compare.py` of the `pleiades_wikidata` repository).

The script's `main` function is embedded shallowly:

* Python `dict`s become insertion-ordered association lists
  (`alistFind` / `alistInsert` reproduce lookup and `d[k] = v`);
* Python `set`s become duplicate-free lists built with `sinsert`
  (membership is all the claims observe of them);
* each tabular row is an ordered list of column/value pairs, as produced
  by a `DictReader`; a missing field makes `Row.get` return `none`,
  which the pipeline turns into the `KeyError` the script would raise;
* the JSON alignment index is a list of key/record pairs, where a record
  whose `alignments` field is absent carries `none`;
* file-system effects (`mkdir`, file writes) are reified as an `Event`
  list so that "no output is written on failure" is statable.
-/

namespace PleiadesWikidata

abbrev Uri := String

/-- Character-list version of Python `str.startswith`. -/
def listIsPre : List Char → List Char → Bool
  | [], _ => true
  | _ :: _, [] => false
  | a :: as, b :: bs => a == b && listIsPre as bs

/-- `strStarts s pre` models `s.startswith(pre)`. -/
def strStarts (s pre : String) : Bool := listIsPre pre.data s.data

/-- `strEnds s suf` models `s.endswith(suf)`. -/
def strEnds (s suf : String) : Bool := listIsPre suf.data.reverse s.data.reverse

/-- `strDropLast s` models the Python slice `s[:-1]`. -/
def strDropLast (s : String) : String := ⟨s.data.dropLast⟩

/-- Lookup in an insertion-ordered association list (Python `d[k]` /
`k in d`, with `none` for a missing key). -/
def alistFind {β : Type} : List (String × β) → String → Option β
  | [], _ => none
  | (k', v) :: rest, k => if k' = k then some v else alistFind rest k

/-- Python `d[k] = v`: replace the value at an existing key in place,
otherwise append the new binding at the end (insertion order). -/
def alistInsert {β : Type} : List (String × β) → String → β → List (String × β)
  | [], k, v => [(k, v)]
  | (k', v') :: rest, k, v =>
      if k' = k then (k, v) :: rest else (k', v') :: alistInsert rest k v

/-- Python `s.add(x)` on a set represented as a duplicate-free list. -/
def sinsert (s : List String) (x : String) : List String :=
  if x ∈ s then s else s ++ [x]

/-- One tabular row of the Wikidata export: the ordered column/value
pairs a `DictReader` yields. -/
structure Row where
  fields : List (String × String)
deriving DecidableEq

/-- `row["k"]`, with `none` standing for the `KeyError` case. -/
def Row.get (r : Row) (k : String) : Option String := alistFind r.fields k

/-- The place-authority URI base (string literal in `compare.py`). -/
def pleiadesBase : String := "https://pleiades.stoa.org/places/"

/-- The target-authority URI base (string literal in `compare.py`). -/
def wikidataBase : String := "https://www.wikidata.org/wiki/"

/-- One record of the JSON alignment index; `alignments = none` models a
record that lacks the `alignments` field. -/
structure IndexRecord where
  alignments : Option (List Uri)
deriving DecidableEq

/-- The JSON index file as handed to the script: either text that
`json.load` rejects, or the parsed key/record object. -/
inductive IndexInput where
  | malformed (msg : String)
  | parsed (entries : List (Uri × IndexRecord))

/-- The `puris` list of `compare.py`: index keys filtered on the
place-authority URI base. -/
def indexPuris (entries : List (Uri × IndexRecord)) : List Uri :=
  (entries.map Prod.fst).filter (fun k => strStarts k pleiadesBase)

/-- The `p2w` construction loop of `compare.py`: for each qualifying key
look up its record, read `alignments` (a `KeyError` if absent), filter
on the target-authority base and keep the first hit, if any. -/
def collectP2W (entries : List (Uri × IndexRecord)) :
    List Uri → List (Uri × Uri) → Except String (List (Uri × Uri))
  | [], acc => .ok acc
  | puri :: rest, acc =>
    match alistFind entries puri with
    | none => .error ("KeyError: " ++ puri)
    | some r =>
      match r.alignments with
      | none => .error ("KeyError: alignments of " ++ puri)
      | some al =>
        match al.filter (fun v => strStarts v wikidataBase) with
        | [] => collectP2W entries rest acc
        | w :: _ => collectP2W entries rest (alistInsert acc puri w)

/-- The Reference Index Loader (lines 96–108 of `compare.py`). -/
def loadP2W (entries : List (Uri × IndexRecord)) : Except String (List (Uri × Uri)) :=
  collectP2W entries (indexPuris entries) []

/-- The mutable state of the row loop of `compare.py` (lines 117–142),
field names as in the script. -/
structure LoopState where
  wikidata_dict : List (Uri × Row)
  wikidata_dict_index : List (Uri × Uri)
  w2p : List (Uri × List Uri)
  bidirectional : List Uri
  cited_puris : List Uri
  multicited_puris : List Uri
deriving DecidableEq

def initState : LoopState := ⟨[], [], [], [], [], []⟩

/-- The successful body of one iteration of the row loop, given the two
field values already extracted. -/
def applyRow (p2w : List (Uri × Uri)) (st : LoopState) (wuri pid : String)
    (row : Row) : LoopState :=
  let puri := pleiadesBase ++ pid
  { wikidata_dict := alistInsert st.wikidata_dict wuri row
    wikidata_dict_index := alistInsert st.wikidata_dict_index puri wuri
    w2p := alistInsert st.w2p wuri
      (sinsert ((alistFind st.w2p wuri).getD []) puri)
    bidirectional :=
      if (alistFind p2w puri).isSome then sinsert st.bidirectional puri
      else st.bidirectional
    cited_puris :=
      if puri ∈ st.cited_puris then st.cited_puris
      else sinsert st.cited_puris puri
    multicited_puris :=
      if puri ∈ st.cited_puris then sinsert st.multicited_puris puri
      else st.multicited_puris }

/-- One iteration of the row loop.  The script assigns
`wikidata_dict[wuri] = row` before reading `row["pleiades"]`; since a
`KeyError` aborts the whole run and discards the state, folding both
field reads to the front is unobservable. -/
def processRow (p2w : List (Uri × Uri)) (st : LoopState) (row : Row) :
    Except String LoopState :=
  match row.get "item" with
  | none => .error "KeyError: item"
  | some wuri =>
    match row.get "pleiades" with
    | none => .error "KeyError: pleiades"
    | some pid => .ok (applyRow p2w st wuri pid row)

/-- The whole row loop (lines 123–142 of `compare.py`). -/
def processRows (p2w : List (Uri × Uri)) :
    LoopState → List Row → Except String LoopState
  | st, [] => .ok st
  | st, r :: rs =>
    match processRow p2w st r with
    | .error e => .error e
    | .ok st1 => processRows p2w st1 rs

/-- The set comprehension `{v for subset in w2p.values() for v in subset}`. -/
def citedAllList (st : LoopState) : List Uri :=
  ((st.w2p.map Prod.snd).flatten).foldl sinsert []

/-- The derived sets and mappings of the Reconciliation Engine, with the
loop state they were computed from. -/
structure RunResult where
  st : LoopState
  only_pleiades : List Uri
  only_wikidata : List Uri
  multiple_p4w : List Uri
  multicited : List (Uri × List Uri)
deriving DecidableEq

/-- Lines 146–166 of `compare.py`: `only_pleiades`, `only_wikidata`,
`multiple_p4w` and the `multicited` mapping. -/
def mkRunResult (p2w : List (Uri × Uri)) (st : LoopState) : RunResult :=
  { st := st
    only_pleiades :=
      (p2w.map Prod.fst).filter (fun p => decide (p ∉ st.bidirectional))
    only_wikidata :=
      (citedAllList st).filter (fun p => decide (p ∉ st.bidirectional))
    multiple_p4w :=
      (st.w2p.filter (fun e => decide (1 < e.2.length))).map Prod.fst
    multicited :=
      st.multicited_puris.map (fun p =>
        (p, (st.w2p.filter (fun e => decide (p ∈ e.2))).map Prod.fst)) }

/-- Load the tabular rows and run the Reconciliation Engine. -/
def reconcile (p2w : List (Uri × Uri)) (rows : List Row) :
    Except String RunResult :=
  match processRows p2w initState rows with
  | .error e => .error e
  | .ok st => .ok (mkRunResult p2w st)

/-- The key renaming of the output loop at lines 210–227 of
`compare.py` (the value part is `renameVal`). -/
def renameKey (k : String) : String :=
  if k = "item" then "wikidata_uri"
  else if k = "pleiades" then "pleiades_uri"
  else if k = "itemLabel" then "wikidata_label"
  else if k = "itemDescription" then "wikidata_description"
  else if k = "coordinates" then "wikidata_coordinates"
  else if strEnds k "s" then strDropLast k
  else k

/-- The value written for a renamed column: the `pleiades` column gets
the loop's place URI, every other column keeps the row's value. -/
def renameVal (puri : Uri) (k v : String) : String :=
  if k = "pleiades" then puri else v

/-- The dictionary `d` built for one output row of
`wikidata_not_in_pleiades.csv` (lines 210–227). -/
def renameRow (puri : Uri) (row : Row) : List (String × String) :=
  row.fields.foldl
    (fun d kv => alistInsert d (renameKey kv.1) (renameVal puri kv.1 kv.2)) []

/-- The output row emitted for one member of `only_wikidata`: look up the
representative item via `wikidata_dict_index`, then its row via
`wikidata_dict`, and rename.  The `none` fallbacks are unreachable on
any state produced by `processRows`. -/
def emitRowFor (st : LoopState) (puri : Uri) : List (String × String) :=
  match alistFind st.wikidata_dict_index puri with
  | none => []
  | some wuri =>
    match alistFind st.wikidata_dict wuri with
    | none => []
    | some row => renameRow puri row

/-- All rows written to `wikidata_not_in_pleiades.csv` (lines 207–228). -/
def emitW2P (res : RunResult) : List (List (String × String)) :=
  res.only_wikidata.map (emitRowFor res.st)

/-- Observable file-system effects of a run. -/
inductive Event where
  | mkdirOutput
  | writeFile (name : String)
deriving DecidableEq

/-- The effect trace of `main`: loading and reconciliation happen before
the output directory is created and any file is written; a failure
anywhere in loading yields an error and an empty trace. -/
def mainEvents (input : IndexInput) (rows : List Row) :
    List Event × Option String :=
  match input with
  | .malformed msg => ([], some msg)
  | .parsed entries =>
    match loadP2W entries with
    | .error e => ([], some e)
    | .ok p2w =>
      match reconcile p2w rows with
      | .error e => ([], some e)
      | .ok _ =>
        ([Event.mkdirOutput,
          Event.writeFile "pleiades_not_in_wikidata.csv",
          Event.writeFile "wikidata_not_in_pleiades.csv",
          Event.writeFile "wikidata_that_cite_multiple_pleiades.csv",
          Event.writeFile "pleiades_cited_by_multiple_wikidata.json"], none)

/-- The `fieldnames` list declared for `wikidata_not_in_pleiades.csv`
(lines 186–205 of `compare.py`). -/
def outputColumns : List String :=
  ["pleiades_uri", "wikidata_uri", "wikidata_label", "wikidata_description",
   "wikidata_coordinates", "chronique_id", "dare_id", "geonames_id",
   "gettytgn_id", "idaigaz_id", "loc_id", "manto_id", "nomisma_id",
   "topostext_id", "trismegistos_id", "viaf_id", "vici_id", "wikipedia_en"]

/-- The column schema of the Wikidata export under which the script's
`DictWriter` accepts every renamed row: the identifier columns are the
declared output columns with the plural suffix restored. -/
def inputColumns : List String :=
  ["item", "pleiades", "itemLabel", "itemDescription", "coordinates",
   "chronique_ids", "dare_ids", "geonames_ids", "gettytgn_ids",
   "idaigaz_ids", "loc_ids", "manto_ids", "nomisma_ids", "topostext_ids",
   "trismegistos_ids", "viaf_ids", "vici_ids", "wikipedia_ens"]

/-- The place URI a row contributes: the place-authority base followed by
the row's `pleiades` field. -/
def rowPuri? (r : Row) : Option Uri :=
  (r.get "pleiades").map (fun pid => pleiadesBase ++ pid)

/-- A place is cited by some raw row. -/
def citesPlace (rows : List Row) (p : Uri) : Prop :=
  ∃ r ∈ rows, rowPuri? r = some p

/-- Item `q` cites place `p` in some raw row. -/
def citedByItem (rows : List Row) (q p : Uri) : Prop :=
  ∃ r ∈ rows, r.get "item" = some q ∧ rowPuri? r = some p

/-- How many raw rows cite place `p`. -/
def citesCount (rows : List Row) (p : Uri) : Nat :=
  rows.countP (fun r => rowPuri? r == some p)

/-! ### Association lists and set insertion -/

theorem alistInsert_cons_eq {β : Type} (tl : List (String × β)) (k k' : String)
    (v v' : β) (h : k' = k) : alistInsert ((k', v') :: tl) k v = (k, v) :: tl := by
  simp [alistInsert, h]

theorem alistInsert_cons_ne {β : Type} (tl : List (String × β)) (k k' : String)
    (v v' : β) (h : ¬ k' = k) :
    alistInsert ((k', v') :: tl) k v = (k', v') :: alistInsert tl k v := by
  simp [alistInsert, h]

theorem alistFind_insert {β : Type} (m : List (String × β)) (k k2 : String) (v : β) :
    alistFind (alistInsert m k v) k2 = if k = k2 then some v else alistFind m k2 := by
  induction m with
  | nil => simp [alistInsert, alistFind]
  | cons hd tl ih =>
    obtain ⟨k', v'⟩ := hd
    by_cases h1 : k' = k
    · rw [alistInsert_cons_eq tl k k' v v' h1]
      by_cases h2 : k = k2
      · simp [alistFind, h2]
      · have h3 : ¬ k' = k2 := h1 ▸ h2
        simp [alistFind, h2, h3]
    · rw [alistInsert_cons_ne tl k k' v v' h1]
      by_cases h2 : k' = k2
      · have h3 : ¬ k = k2 := fun he => h1 (h2.trans he.symm)
        simp [alistFind, h2, h3]
      · simp [alistFind, h2, ih]

theorem mem_keys_alistInsert {β : Type} (m : List (String × β)) (k k2 : String) (v : β) :
    k2 ∈ (alistInsert m k v).map Prod.fst ↔ k2 ∈ m.map Prod.fst ∨ k2 = k := by
  induction m with
  | nil => simp [alistInsert]
  | cons hd tl ih =>
    obtain ⟨k', v'⟩ := hd
    by_cases h1 : k' = k
    · rw [alistInsert_cons_eq tl k k' v v' h1]
      subst h1
      simp only [List.map_cons, List.mem_cons]
      tauto
    · rw [alistInsert_cons_ne tl k k' v v' h1]
      simp only [List.map_cons, List.mem_cons, ih]
      tauto

theorem keys_nodup_alistInsert {β : Type} (m : List (String × β)) (k : String) (v : β)
    (h : (m.map Prod.fst).Nodup) : ((alistInsert m k v).map Prod.fst).Nodup := by
  induction m with
  | nil => simp [alistInsert]
  | cons hd tl ih =>
    obtain ⟨k', v'⟩ := hd
    simp only [List.map_cons, List.nodup_cons] at h
    by_cases h1 : k' = k
    · rw [alistInsert_cons_eq tl k k' v v' h1]
      subst h1
      exact List.nodup_cons.mpr h
    · rw [alistInsert_cons_ne tl k k' v v' h1]
      refine List.nodup_cons.mpr ⟨?_, ih h.2⟩
      intro hmem
      rcases (mem_keys_alistInsert tl k k' v).mp hmem with h2 | h2
      · exact h.1 h2
      · exact h1 h2

theorem mem_of_alistFind {β : Type} (m : List (String × β)) (k : String) (v : β)
    (h : alistFind m k = some v) : (k, v) ∈ m := by
  induction m with
  | nil => simp [alistFind] at h
  | cons hd tl ih =>
    obtain ⟨k', v'⟩ := hd
    by_cases h1 : k' = k
    · subst h1
      simp [alistFind] at h
      simp [h]
    · simp [alistFind, h1] at h
      exact List.mem_cons_of_mem _ (ih h)

theorem alistFind_of_mem {β : Type} (m : List (String × β)) (k : String) (v : β)
    (hnd : (m.map Prod.fst).Nodup) (h : (k, v) ∈ m) : alistFind m k = some v := by
  induction m with
  | nil => simp at h
  | cons hd tl ih =>
    obtain ⟨k', v'⟩ := hd
    simp only [List.map_cons, List.nodup_cons] at hnd
    rcases List.mem_cons.mp h with h2 | h2
    · obtain ⟨h3, h4⟩ := Prod.mk.injEq .. ▸ h2
      simp [alistFind, h3.symm, h4]
    · have hk : k' ≠ k := by
        intro he
        subst he
        exact hnd.1 (List.mem_map.mpr ⟨(k', v), h2, rfl⟩)
      simp [alistFind, hk, ih hnd.2 h2]

theorem alistFind_isSome_iff {β : Type} (m : List (String × β)) (k : String) :
    (alistFind m k).isSome ↔ k ∈ m.map Prod.fst := by
  induction m with
  | nil => simp [alistFind]
  | cons hd tl ih =>
    obtain ⟨k', v'⟩ := hd
    by_cases h1 : k' = k
    · subst h1
      simp [alistFind]
    · have h2 : ¬ k = k' := fun he => h1 he.symm
      simp [alistFind, h1, h2, ih]

theorem mem_alistInsert {β : Type} (m : List (String × β)) (k : String) (v : β)
    (e : String × β) (h : e ∈ alistInsert m k v) : e ∈ m ∨ e = (k, v) := by
  induction m with
  | nil => simpa [alistInsert] using h
  | cons hd tl ih =>
    obtain ⟨k', v'⟩ := hd
    by_cases h1 : k' = k
    · subst h1
      rcases List.mem_cons.mp (by simpa [alistInsert] using h) with h2 | h2
      · exact Or.inr h2
      · exact Or.inl (List.mem_cons_of_mem _ h2)
    · rcases List.mem_cons.mp (by simpa [alistInsert, h1] using h) with h2 | h2
      · exact Or.inl (List.mem_cons.mpr (Or.inl h2))
      · rcases ih h2 with h3 | h3
        · exact Or.inl (List.mem_cons_of_mem _ h3)
        · exact Or.inr h3

theorem alistInsert_of_not_mem {β : Type} (m : List (String × β)) (k : String) (v : β)
    (h : k ∉ m.map Prod.fst) : alistInsert m k v = m ++ [(k, v)] := by
  induction m with
  | nil => simp [alistInsert]
  | cons hd tl ih =>
    obtain ⟨k', v'⟩ := hd
    simp only [List.map_cons, List.mem_cons] at h
    push_neg at h
    have h1 : k' ≠ k := fun he => h.1 he.symm
    simp [alistInsert, h1, ih h.2]

theorem alistFind_map_self {β : Type} (l : List String) (f : String → β) (p : String) :
    alistFind (l.map (fun x => (x, f x))) p =
      if p ∈ l then some (f p) else none := by
  induction l with
  | nil => simp [alistFind]
  | cons hd tl ih =>
    by_cases h1 : hd = p
    · subst h1
      simp [alistFind]
    · simp [alistFind, h1, ih, Ne.symm h1]

theorem mem_sinsert (s : List String) (x a : String) :
    a ∈ sinsert s x ↔ a ∈ s ∨ a = x := by
  unfold sinsert
  split
  · next h => exact ⟨Or.inl, fun h2 => h2.elim id (fun h3 => h3 ▸ h)⟩
  · simp

theorem nodup_sinsert (s : List String) (x : String) (h : s.Nodup) :
    (sinsert s x).Nodup := by
  unfold sinsert
  split
  · exact h
  · next hx => simp [List.nodup_append, h, hx]

theorem mem_foldl_sinsert (l : List String) :
    ∀ (s : List String) (a : String), a ∈ l.foldl sinsert s ↔ a ∈ s ∨ a ∈ l := by
  induction l with
  | nil => simp
  | cons hd tl ih =>
    intro s a
    rw [List.foldl_cons, ih, mem_sinsert, List.mem_cons]
    tauto

theorem nodup_foldl_sinsert (l : List String) :
    ∀ (s : List String), s.Nodup → (l.foldl sinsert s).Nodup := by
  induction l with
  | nil => simp
  | cons hd tl ih =>
    intro s hs
    exact ih _ (nodup_sinsert s hd hs)

theorem one_lt_length_iff_of_nodup {l : List String} (h : l.Nodup) :
    1 < l.length ↔ ∃ a b, a ≠ b ∧ a ∈ l ∧ b ∈ l := by
  constructor
  · intro hl
    match l, hl with
    | a :: b :: t, _ =>
      have hab : a ≠ b := by
        simp only [List.nodup_cons, List.mem_cons] at h
        exact fun he => h.1 (Or.inl he)
      exact ⟨a, b, hab, by simp, by simp⟩
  · rintro ⟨a, b, hab, ha, hb⟩
    match l, ha, hb with
    | [c], ha, hb =>
      simp only [List.mem_singleton] at ha hb
      exact absurd (ha.trans hb.symm) hab
    | _ :: _ :: t, _, _ => simp [Nat.lt_add_of_pos_left]

/-! ### One step of the row loop -/

theorem applyRow_cited (p2w : List (Uri × Uri)) (st : LoopState) (wuri pid : String)
    (row : Row) (p : Uri) :
    p ∈ (applyRow p2w st wuri pid row).cited_puris ↔
      p ∈ st.cited_puris ∨ p = pleiadesBase ++ pid := by
  simp only [applyRow]
  split
  · next h => exact ⟨Or.inl, fun h2 => h2.elim id (fun h3 => h3 ▸ h)⟩
  · exact mem_sinsert _ _ _

theorem applyRow_multi (p2w : List (Uri × Uri)) (st : LoopState) (wuri pid : String)
    (row : Row) (p : Uri) :
    p ∈ (applyRow p2w st wuri pid row).multicited_puris ↔
      p ∈ st.multicited_puris ∨
        (pleiadesBase ++ pid ∈ st.cited_puris ∧ p = pleiadesBase ++ pid) := by
  simp only [applyRow]
  split
  · next h => rw [mem_sinsert]; tauto
  · next h => tauto

theorem applyRow_bidi (p2w : List (Uri × Uri)) (st : LoopState) (wuri pid : String)
    (row : Row) (p : Uri) :
    p ∈ (applyRow p2w st wuri pid row).bidirectional ↔
      p ∈ st.bidirectional ∨
        ((alistFind p2w (pleiadesBase ++ pid)).isSome ∧ p = pleiadesBase ++ pid) := by
  simp only [applyRow]
  split
  · next h => rw [mem_sinsert]; tauto
  · next h => tauto

theorem applyRow_w2p_find (p2w : List (Uri × Uri)) (st : LoopState) (wuri pid : String)
    (row : Row) (q : Uri) :
    alistFind (applyRow p2w st wuri pid row).w2p q =
      if wuri = q then
        some (sinsert ((alistFind st.w2p wuri).getD []) (pleiadesBase ++ pid))
      else alistFind st.w2p q := by
  simp only [applyRow]
  exact alistFind_insert _ _ _ _

theorem applyRow_idx_find (p2w : List (Uri × Uri)) (st : LoopState) (wuri pid : String)
    (row : Row) (p : Uri) :
    alistFind (applyRow p2w st wuri pid row).wikidata_dict_index p =
      if pleiadesBase ++ pid = p then some wuri
      else alistFind st.wikidata_dict_index p := by
  simp only [applyRow]
  exact alistFind_insert _ _ _ _

theorem applyRow_dict_find (p2w : List (Uri × Uri)) (st : LoopState) (wuri pid : String)
    (row : Row) (q : Uri) :
    alistFind (applyRow p2w st wuri pid row).wikidata_dict q =
      if wuri = q then some row else alistFind st.wikidata_dict q := by
  simp only [applyRow]
  exact alistFind_insert _ _ _ _

theorem processRow_eq_ok_iff (p2w : List (Uri × Uri)) (st : LoopState) (row : Row)
    (st1 : LoopState) :
    processRow p2w st row = .ok st1 ↔
      ∃ wuri pid, row.get "item" = some wuri ∧ row.get "pleiades" = some pid ∧
        st1 = applyRow p2w st wuri pid row := by
  unfold processRow
  cases h1 : row.get "item" <;> cases h2 : row.get "pleiades" <;> simp [eq_comm]

theorem processRows_nil_elim (p2w : List (Uri × Uri)) (st st' : LoopState)
    (h : processRows p2w st [] = .ok st') : st = st' := by
  simp only [processRows] at h
  exact Except.ok.inj h

theorem processRows_cons_elim (p2w : List (Uri × Uri)) (st : LoopState) (r : Row)
    (rs : List Row) (st' : LoopState) (h : processRows p2w st (r :: rs) = .ok st') :
    ∃ wuri pid, r.get "item" = some wuri ∧ r.get "pleiades" = some pid ∧
      processRows p2w (applyRow p2w st wuri pid r) rs = .ok st' := by
  unfold processRows at h
  cases hr : processRow p2w st r with
  | error e => rw [hr] at h; simp at h
  | ok st1 =>
    rw [hr] at h
    obtain ⟨wuri, pid, h1, h2, h3⟩ := (processRow_eq_ok_iff p2w st r st1).mp hr
    exact ⟨wuri, pid, h1, h2, h3 ▸ h⟩

/-! ### Row-level citation predicates -/

theorem citesPlace_cons (r : Row) (rs : List Row) (p : Uri) :
    citesPlace (r :: rs) p ↔ rowPuri? r = some p ∨ citesPlace rs p := by
  simp [citesPlace]

theorem citedByItem_cons (r : Row) (rs : List Row) (q p : Uri) :
    citedByItem (r :: rs) q p ↔
      (r.get "item" = some q ∧ rowPuri? r = some p) ∨ citedByItem rs q p := by
  simp [citedByItem]

theorem citesCount_cons (r : Row) (rs : List Row) (p : Uri) :
    citesCount (r :: rs) p =
      citesCount rs p + if rowPuri? r = some p then 1 else 0 := by
  simp [citesCount, List.countP_cons]

theorem citesPlace_iff_pos (rows : List Row) (p : Uri) :
    citesPlace rows p ↔ 1 ≤ citesCount rows p := by
  rw [citesPlace, citesCount, show (1 ≤ List.countP (fun r => rowPuri? r == some p) rows) ↔
    (0 < List.countP (fun r => rowPuri? r == some p) rows) from Iff.rfl,
    List.countP_pos_iff]
  simp

theorem rowPuri?_of_pleiades (r : Row) (pid : String)
    (h : r.get "pleiades" = some pid) : rowPuri? r = some (pleiadesBase ++ pid) := by
  simp [rowPuri?, h]

/-! ### Characterizing the final loop state by the raw rows -/

theorem cited_char (p2w : List (Uri × Uri)) :
    ∀ (rows : List Row) (st st' : LoopState),
      processRows p2w st rows = .ok st' →
      ∀ p, p ∈ st'.cited_puris ↔ p ∈ st.cited_puris ∨ citesPlace rows p := by
  intro rows
  induction rows with
  | nil =>
    intro st st' h p
    obtain rfl := processRows_nil_elim p2w st st' h
    simp [citesPlace]
  | cons r rs ih =>
    intro st st' h p
    obtain ⟨wuri, pid, h1, h2, h3⟩ := processRows_cons_elim p2w st r rs st' h
    have hp := rowPuri?_of_pleiades r pid h2
    have heq : rowPuri? r = some p ↔ p = pleiadesBase ++ pid := by
      rw [hp]
      exact ⟨fun h4 => (Option.some.inj h4).symm, fun h4 => h4 ▸ rfl⟩
    rw [ih _ _ h3 p, applyRow_cited, citesPlace_cons, heq]
    tauto

theorem bidi_char (p2w : List (Uri × Uri)) :
    ∀ (rows : List Row) (st st' : LoopState),
      processRows p2w st rows = .ok st' →
      ∀ p, p ∈ st'.bidirectional ↔
        p ∈ st.bidirectional ∨ ((alistFind p2w p).isSome ∧ citesPlace rows p) := by
  intro rows
  induction rows with
  | nil =>
    intro st st' h p
    obtain rfl := processRows_nil_elim p2w st st' h
    simp [citesPlace]
  | cons r rs ih =>
    intro st st' h p
    obtain ⟨wuri, pid, h1, h2, h3⟩ := processRows_cons_elim p2w st r rs st' h
    have hp := rowPuri?_of_pleiades r pid h2
    have heq : rowPuri? r = some p ↔ p = pleiadesBase ++ pid := by
      rw [hp]
      exact ⟨fun h4 => (Option.some.inj h4).symm, fun h4 => h4 ▸ rfl⟩
    rw [ih _ _ h3 p, applyRow_bidi, citesPlace_cons, heq]
    constructor
    · rintro ((hm | ⟨hs, rfl⟩) | ⟨hs, hc⟩)
      · exact Or.inl hm
      · exact Or.inr ⟨hs, Or.inl rfl⟩
      · exact Or.inr ⟨hs, Or.inr hc⟩
    · rintro (hm | ⟨hs, rfl | hc⟩)
      · exact Or.inl (Or.inl hm)
      · exact Or.inl (Or.inr ⟨hs, rfl⟩)
      · exact Or.inr ⟨hs, hc⟩

theorem multi_char (p2w : List (Uri × Uri)) :
    ∀ (rows : List Row) (st st' : LoopState),
      processRows p2w st rows = .ok st' →
      ∀ p, p ∈ st'.multicited_puris ↔
        p ∈ st.multicited_puris ∨ (p ∈ st.cited_puris ∧ citesPlace rows p) ∨
          2 ≤ citesCount rows p := by
  intro rows
  induction rows with
  | nil =>
    intro st st' h p
    obtain rfl := processRows_nil_elim p2w st st' h
    simp [citesPlace, citesCount]
  | cons r rs ih =>
    intro st st' h p
    obtain ⟨wuri, pid, h1, h2, h3⟩ := processRows_cons_elim p2w st r rs st' h
    have hp := rowPuri?_of_pleiades r pid h2
    rw [ih _ _ h3 p, applyRow_multi, applyRow_cited, citesPlace_cons,
      citesCount_cons]
    simp only [hp, Option.some.injEq]
    by_cases hP : pleiadesBase ++ pid = p
    · subst hP
      rw [if_pos rfl]
      simp only [citesPlace_iff_pos rs, eq_self_iff_true, and_true, true_and,
        or_true, true_or]
      have e2 : 2 ≤ citesCount rs (pleiadesBase ++ pid) + 1 ↔
          1 ≤ citesCount rs (pleiadesBase ++ pid) := by omega
      rw [e2]
      have e3 : 2 ≤ citesCount rs (pleiadesBase ++ pid) →
          1 ≤ citesCount rs (pleiadesBase ++ pid) := by omega
      tauto
    · have hP2 : ¬ (p = pleiadesBase ++ pid) := fun he => hP he.symm
      rw [if_neg hP, Nat.add_zero]
      simp only [hP, hP2, false_and, and_false, or_false, false_or]

theorem w2p_char (p2w : List (Uri × Uri)) :
    ∀ (rows : List Row) (st st' : LoopState),
      processRows p2w st rows = .ok st' →
      ∀ q p, p ∈ ((alistFind st'.w2p q).getD []) ↔
        p ∈ ((alistFind st.w2p q).getD []) ∨ citedByItem rows q p := by
  intro rows
  induction rows with
  | nil =>
    intro st st' h q p
    obtain rfl := processRows_nil_elim p2w st st' h
    simp [citedByItem]
  | cons r rs ih =>
    intro st st' h q p
    obtain ⟨wuri, pid, h1, h2, h3⟩ := processRows_cons_elim p2w st r rs st' h
    have hp := rowPuri?_of_pleiades r pid h2
    have heq : rowPuri? r = some p ↔ p = pleiadesBase ++ pid := by
      rw [hp]
      exact ⟨fun h4 => (Option.some.inj h4).symm, fun h4 => h4 ▸ rfl⟩
    rw [ih _ _ h3 q p, citedByItem_cons, heq]
    by_cases hq : wuri = q
    · subst hq
      rw [applyRow_w2p_find, if_pos rfl]
      simp only [Option.getD_some, mem_sinsert]
      have hitem : r.get "item" = some wuri ↔ True := by simp [h1]
      rw [hitem]
      tauto
    · rw [applyRow_w2p_find, if_neg hq]
      have hitem : ¬ (r.get "item" = some q) := by
        rw [h1]
        exact fun h4 => hq (Option.some.inj h4)
      tauto

/-- The step function of the representative-item fold: the last row that
cites `p` wins. -/
def idxStep (p : Uri) (acc : Option Uri) (r : Row) : Option Uri :=
  if rowPuri? r == some p then r.get "item" else acc

theorem idx_char (p2w : List (Uri × Uri)) :
    ∀ (rows : List Row) (st st' : LoopState),
      processRows p2w st rows = .ok st' →
      ∀ p, alistFind st'.wikidata_dict_index p =
        rows.foldl (idxStep p) (alistFind st.wikidata_dict_index p) := by
  intro rows
  induction rows with
  | nil =>
    intro st st' h p
    obtain rfl := processRows_nil_elim p2w st st' h
    simp
  | cons r rs ih =>
    intro st st' h p
    obtain ⟨wuri, pid, h1, h2, h3⟩ := processRows_cons_elim p2w st r rs st' h
    have hp := rowPuri?_of_pleiades r pid h2
    have hstep : idxStep p (alistFind st.wikidata_dict_index p) r =
        alistFind (applyRow p2w st wuri pid r).wikidata_dict_index p := by
      rw [applyRow_idx_find]
      unfold idxStep
      rw [hp]
      by_cases hP : pleiadesBase ++ pid = p
      · simp [hP, h1]
      · simp [hP]
    rw [List.foldl_cons, hstep, ih _ _ h3 p]

theorem idx_dict_inv (p2w : List (Uri × Uri)) :
    ∀ (rows : List Row) (st st' : LoopState),
      processRows p2w st rows = .ok st' →
      (∀ p q, alistFind st.wikidata_dict_index p = some q →
        (alistFind st.wikidata_dict q).isSome) →
      ∀ p q, alistFind st'.wikidata_dict_index p = some q →
        (alistFind st'.wikidata_dict q).isSome := by
  intro rows
  induction rows with
  | nil =>
    intro st st' h hinv
    obtain rfl := processRows_nil_elim p2w st st' h
    exact hinv
  | cons r rs ih =>
    intro st st' h hinv
    obtain ⟨wuri, pid, h1, h2, h3⟩ := processRows_cons_elim p2w st r rs st' h
    refine ih _ _ h3 ?_
    intro p q hfind
    rw [applyRow_idx_find] at hfind
    rw [applyRow_dict_find]
    by_cases hq : wuri = q
    · simp [hq]
    · rw [if_neg hq]
      split at hfind
      · exact absurd (Option.some.inj hfind) hq
      · exact hinv p q hfind

theorem cited_iff_idx (p2w : List (Uri × Uri)) :
    ∀ (rows : List Row) (st st' : LoopState),
      processRows p2w st rows = .ok st' →
      (∀ p, p ∈ st.cited_puris ↔ (alistFind st.wikidata_dict_index p).isSome) →
      ∀ p, p ∈ st'.cited_puris ↔ (alistFind st'.wikidata_dict_index p).isSome := by
  intro rows
  induction rows with
  | nil =>
    intro st st' h hinv
    obtain rfl := processRows_nil_elim p2w st st' h
    exact hinv
  | cons r rs ih =>
    intro st st' h hinv
    obtain ⟨wuri, pid, h1, h2, h3⟩ := processRows_cons_elim p2w st r rs st' h
    refine ih _ _ h3 ?_
    intro p
    rw [applyRow_cited, applyRow_idx_find, hinv p]
    by_cases hP : pleiadesBase ++ pid = p
    · simp [hP]
    · have : ¬ (p = pleiadesBase ++ pid) := fun he => hP he.symm
      simp [hP, this]

theorem w2p_keys_nodup (p2w : List (Uri × Uri)) :
    ∀ (rows : List Row) (st st' : LoopState),
      processRows p2w st rows = .ok st' →
      (st.w2p.map Prod.fst).Nodup → (st'.w2p.map Prod.fst).Nodup := by
  intro rows
  induction rows with
  | nil =>
    intro st st' h hnd
    obtain rfl := processRows_nil_elim p2w st st' h
    exact hnd
  | cons r rs ih =>
    intro st st' h hnd
    obtain ⟨wuri, pid, h1, h2, h3⟩ := processRows_cons_elim p2w st r rs st' h
    exact ih _ _ h3 (keys_nodup_alistInsert _ _ _ hnd)

theorem w2p_vals_nodup (p2w : List (Uri × Uri)) :
    ∀ (rows : List Row) (st st' : LoopState),
      processRows p2w st rows = .ok st' →
      (∀ e ∈ st.w2p, e.2.Nodup) → ∀ e ∈ st'.w2p, e.2.Nodup := by
  intro rows
  induction rows with
  | nil =>
    intro st st' h hnd
    obtain rfl := processRows_nil_elim p2w st st' h
    exact hnd
  | cons r rs ih =>
    intro st st' h hnd
    obtain ⟨wuri, pid, h1, h2, h3⟩ := processRows_cons_elim p2w st r rs st' h
    refine ih _ _ h3 ?_
    intro e he
    rcases mem_alistInsert _ _ _ e (by simpa [applyRow] using he) with h4 | h4
    · exact hnd e h4
    · rw [h4]
      refine nodup_sinsert _ _ ?_
      cases hf : alistFind st.w2p wuri with
      | none => simp
      | some l =>
        simpa using hnd (wuri, l) (mem_of_alistFind _ _ _ hf)

theorem multi_nodup (p2w : List (Uri × Uri)) :
    ∀ (rows : List Row) (st st' : LoopState),
      processRows p2w st rows = .ok st' →
      st.multicited_puris.Nodup → st'.multicited_puris.Nodup := by
  intro rows
  induction rows with
  | nil =>
    intro st st' h hnd
    obtain rfl := processRows_nil_elim p2w st st' h
    exact hnd
  | cons r rs ih =>
    intro st st' h hnd
    obtain ⟨wuri, pid, h1, h2, h3⟩ := processRows_cons_elim p2w st r rs st' h
    refine ih _ _ h3 ?_
    simp only [applyRow]
    split
    · exact nodup_sinsert _ _ hnd
    · exact hnd

theorem rows_wf (p2w : List (Uri × Uri)) :
    ∀ (rows : List Row) (st st' : LoopState),
      processRows p2w st rows = .ok st' →
      ∀ r ∈ rows, (r.get "item").isSome ∧ (r.get "pleiades").isSome := by
  intro rows
  induction rows with
  | nil => intro st st' _ r hr; simp at hr
  | cons r0 rs ih =>
    intro st st' h r hr
    obtain ⟨wuri, pid, h1, h2, h3⟩ := processRows_cons_elim p2w st r0 rs st' h
    rcases List.mem_cons.mp hr with hr | hr
    · subst hr
      exact ⟨by simp [h1], by simp [h2]⟩
    · exact ih _ _ h3 r hr

theorem processRows_ok_of_wf (p2w : List (Uri × Uri)) :
    ∀ (rows : List Row) (st : LoopState),
      (∀ r ∈ rows, (r.get "item").isSome ∧ (r.get "pleiades").isSome) →
      ∃ st', processRows p2w st rows = .ok st' := by
  intro rows
  induction rows with
  | nil => intro st _; exact ⟨st, rfl⟩
  | cons r rs ih =>
    intro st hwf
    obtain ⟨hi, hp⟩ := hwf r (List.mem_cons_self r rs)
    obtain ⟨wuri, hi'⟩ := Option.isSome_iff_exists.mp hi
    obtain ⟨pid, hp'⟩ := Option.isSome_iff_exists.mp hp
    obtain ⟨st', hst'⟩ := ih (applyRow p2w st wuri pid r)
      (fun r2 hr2 => hwf r2 (List.mem_cons_of_mem r hr2))
    refine ⟨st', ?_⟩
    unfold processRows processRow
    rw [hi', hp']
    exact hst'

/-! ### Characterizing the Reference Index Loader -/

/-- The first alignment of `p` with the target-authority base, if the
record and its `alignments` field exist. -/
def firstWd (entries : List (Uri × IndexRecord)) (p : Uri) : Option Uri :=
  match alistFind entries p with
  | none => none
  | some r =>
    match r.alignments with
    | none => none
    | some al => (al.filter (fun v => strStarts v wikidataBase)).head?

theorem collect_inv (entries : List (Uri × IndexRecord)) :
    ∀ (puris : List Uri) (acc m : List (Uri × Uri)),
      collectP2W entries puris acc = .ok m →
      ∀ p, alistFind m p =
        if p ∈ puris ∧ (firstWd entries p).isSome then firstWd entries p
        else alistFind acc p := by
  intro puris
  induction puris with
  | nil =>
    intro acc m h p
    simp only [collectP2W] at h
    obtain rfl := Except.ok.inj h
    simp
  | cons p0 rest ih =>
    intro acc m h p
    unfold collectP2W at h
    split at h
    · simp at h
    · rename_i r0 hf
      split at h
      · simp at h
      · rename_i al ha
        split at h
        · rename_i hfl
          have hw : firstWd entries p0 = none := by
            simp [firstWd, hf, ha, hfl]
          rw [ih acc m h p]
          by_cases hp0 : p = p0
          · subst hp0
            simp [hw]
          · by_cases hm : p ∈ rest ∧ (firstWd entries p).isSome
            · rw [if_pos hm, if_pos ⟨List.mem_cons_of_mem _ hm.1, hm.2⟩]
            · rw [if_neg hm, if_neg ?_]
              rintro ⟨hmem, hs⟩
              rcases List.mem_cons.mp hmem with he | he
              · exact hp0 he
              · exact hm ⟨he, hs⟩
        · rename_i w ws hfl
          have hw : firstWd entries p0 = some w := by
            simp [firstWd, hf, ha, hfl]
          rw [ih _ m h p, alistFind_insert]
          by_cases hp0 : p0 = p
          · subst hp0
            by_cases hm : p0 ∈ rest ∧ (firstWd entries p0).isSome
            · rw [if_pos hm, if_pos ⟨List.mem_cons_self p0 rest, hm.2⟩]
            · rw [if_neg hm, if_pos rfl,
                if_pos ⟨List.mem_cons_self p0 rest, by simp [hw]⟩, hw]
          · by_cases hm : p ∈ rest ∧ (firstWd entries p).isSome
            · rw [if_pos hm, if_pos ⟨List.mem_cons_of_mem _ hm.1, hm.2⟩]
            · rw [if_neg hm, if_neg hp0, if_neg ?_]
              rintro ⟨hmem, hs⟩
              rcases List.mem_cons.mp hmem with he | he
              · exact hp0 he.symm
              · exact hm ⟨he, hs⟩

theorem loadP2W_char (entries : List (Uri × IndexRecord)) (m : List (Uri × Uri))
    (h : loadP2W entries = .ok m) (p : Uri) :
    alistFind m p =
      if p ∈ indexPuris entries ∧ (firstWd entries p).isSome then firstWd entries p
      else none := by
  have h2 := collect_inv entries (indexPuris entries) [] m h p
  rw [h2]
  rfl

theorem collect_error_of_missing (entries : List (Uri × IndexRecord)) :
    ∀ (puris : List Uri) (acc : List (Uri × Uri)) (p : Uri) (r : IndexRecord),
      p ∈ puris → alistFind entries p = some r → r.alignments = none →
      ∃ e, collectP2W entries puris acc = .error e := by
  intro puris
  induction puris with
  | nil => intro acc p r hmem; simp at hmem
  | cons p0 rest ih =>
    intro acc p r hmem hf ha
    cases hf0 : alistFind entries p0 with
    | none => exact ⟨"KeyError: " ++ p0, by simp only [collectP2W, hf0]⟩
    | some r0 =>
      cases ha0 : r0.alignments with
      | none =>
        exact ⟨"KeyError: alignments of " ++ p0,
          by simp only [collectP2W, hf0, ha0]⟩
      | some al =>
        have hprest : p ∈ rest := by
          rcases List.mem_cons.mp hmem with he | he
          · subst he
            rw [hf] at hf0
            obtain rfl := Option.some.inj hf0
            rw [ha] at ha0
            exact absurd ha0 (by simp)
          · exact he
        cases hfl : al.filter (fun v => strStarts v wikidataBase) with
        | nil =>
          obtain ⟨e, he⟩ := ih acc p r hprest hf ha
          exact ⟨e, by simp only [collectP2W, hf0, ha0, hfl]; exact he⟩
        | cons w ws =>
          obtain ⟨e, he⟩ := ih (alistInsert acc p0 w) p r hprest hf ha
          exact ⟨e, by simp only [collectP2W, hf0, ha0, hfl]; exact he⟩

theorem processRows_error_of_bad (p2w : List (Uri × Uri)) :
    ∀ (rows : List Row) (st : LoopState) (r : Row),
      r ∈ rows → (r.get "item" = none ∨ r.get "pleiades" = none) →
      ∃ e, processRows p2w st rows = .error e := by
  intro rows
  induction rows with
  | nil => intro st r hmem; simp at hmem
  | cons r0 rs ih =>
    intro st r hmem hbad
    cases hpr : processRow p2w st r0 with
    | error e => exact ⟨e, by unfold processRows; rw [hpr]⟩
    | ok st1 =>
      have hrs : r ∈ rs := by
        rcases List.mem_cons.mp hmem with he | he
        · subst he
          exfalso
          obtain ⟨wuri, pid, h1, h2, _⟩ :=
            (processRow_eq_ok_iff p2w st r st1).mp hpr
          rcases hbad with hb | hb
          · rw [hb] at h1; exact Option.noConfusion h1
          · rw [hb] at h2; exact Option.noConfusion h2
        · exact he
      obtain ⟨e, he⟩ := ih st1 r hrs hbad
      exact ⟨e, by unfold processRows; rw [hpr]; exact he⟩

/-! ### The derived sets of the Reconciliation Engine -/

theorem mem_only_pleiades (p2w : List (Uri × Uri)) (st : LoopState) (p : Uri) :
    p ∈ (mkRunResult p2w st).only_pleiades ↔
      p ∈ p2w.map Prod.fst ∧ p ∉ st.bidirectional := by
  simp [mkRunResult, List.mem_filter]

theorem nodup_citedAllList (st : LoopState) : (citedAllList st).Nodup :=
  nodup_foldl_sinsert _ [] (by simp)

theorem mem_citedAllList (st : LoopState) (p : Uri)
    (hnd : (st.w2p.map Prod.fst).Nodup) :
    p ∈ citedAllList st ↔ ∃ q, p ∈ ((alistFind st.w2p q).getD []) := by
  rw [citedAllList, mem_foldl_sinsert]
  simp only [List.not_mem_nil, false_or, List.mem_flatten, List.mem_map]
  constructor
  · rintro ⟨l, ⟨⟨q, lv⟩, hmem, rfl⟩, hpl⟩
    refine ⟨q, ?_⟩
    rw [alistFind_of_mem _ _ _ hnd hmem]
    exact hpl
  · rintro ⟨q, hq⟩
    cases hf : alistFind st.w2p q with
    | none => rw [hf] at hq; simp at hq
    | some l =>
      rw [hf] at hq
      exact ⟨l, ⟨(q, l), mem_of_alistFind _ _ _ hf, rfl⟩, by simpa using hq⟩

theorem mem_only_wikidata (p2w : List (Uri × Uri)) (st : LoopState) (p : Uri)
    (hnd : (st.w2p.map Prod.fst).Nodup) :
    p ∈ (mkRunResult p2w st).only_wikidata ↔
      (∃ q, p ∈ ((alistFind st.w2p q).getD [])) ∧ p ∉ st.bidirectional := by
  simp only [mkRunResult, List.mem_filter, decide_eq_true_eq]
  rw [mem_citedAllList st p hnd]

theorem nodup_only_wikidata (p2w : List (Uri × Uri)) (st : LoopState) :
    (mkRunResult p2w st).only_wikidata.Nodup := by
  simp only [mkRunResult]
  exact (nodup_citedAllList st).filter _

theorem mem_multiple_p4w (p2w : List (Uri × Uri)) (st : LoopState) (q : Uri) :
    q ∈ (mkRunResult p2w st).multiple_p4w ↔
      ∃ e ∈ st.w2p, 1 < e.2.length ∧ e.1 = q := by
  simp [mkRunResult, List.mem_map, List.mem_filter, and_assoc]

theorem multicited_find (p2w : List (Uri × Uri)) (st : LoopState) (p : Uri) :
    alistFind (mkRunResult p2w st).multicited p =
      if p ∈ st.multicited_puris then
        some ((st.w2p.filter (fun e => decide (p ∈ e.2))).map Prod.fst)
      else none := by
  simp only [mkRunResult]
  exact alistFind_map_self _ _ p

theorem multicited_keys (p2w : List (Uri × Uri)) (st : LoopState) (p : Uri) :
    p ∈ (mkRunResult p2w st).multicited.map Prod.fst ↔
      p ∈ st.multicited_puris := by
  simp [mkRunResult, List.mem_map]

theorem mem_multicited_items (st : LoopState) (p q : Uri)
    (hnd : (st.w2p.map Prod.fst).Nodup) :
    q ∈ (st.w2p.filter (fun e => decide (p ∈ e.2))).map Prod.fst ↔
      p ∈ ((alistFind st.w2p q).getD []) := by
  constructor
  · intro hq
    obtain ⟨e, hmem, he⟩ := List.mem_map.mp hq
    obtain ⟨hew, hep⟩ := List.mem_filter.mp hmem
    obtain ⟨q0, l⟩ := e
    obtain rfl : q0 = q := he
    rw [alistFind_of_mem _ _ _ hnd hew]
    simpa using hep
  · intro hq
    cases hf : alistFind st.w2p q with
    | none => rw [hf] at hq; simp at hq
    | some l =>
      rw [hf] at hq
      refine List.mem_map.mpr ⟨(q, l), List.mem_filter.mpr
        ⟨mem_of_alistFind _ _ _ hf, by simpa using hq⟩, rfl⟩

theorem reconcile_elim (p2w : List (Uri × Uri)) (rows : List Row) (res : RunResult)
    (h : reconcile p2w rows = .ok res) :
    processRows p2w initState rows = .ok res.st ∧
      res = mkRunResult p2w res.st := by
  unfold reconcile at h
  split at h
  · simp at h
  · rename_i st hst
    obtain rfl := Except.ok.inj h
    exact ⟨hst, rfl⟩

/-! ### The claims -/

/-- C6: for every JSON index object, the Reference Index Loader produces a
mapping whose keys are exactly the index keys that start with the
place-authority URI base and whose alignments list contains at least one
element starting with the target-authority URI base; each such key maps to
the first such element in source order, and keys with no qualifying
alignment are absent. -/
theorem claim_C6 (entries : List (Uri × IndexRecord)) (m : List (Uri × Uri))
    (h : loadP2W entries = .ok m) (p w : Uri) :
    alistFind m p = some w ↔
      p ∈ entries.map Prod.fst ∧ strStarts p pleiadesBase = true ∧
        ∃ r al, alistFind entries p = some r ∧ r.alignments = some al ∧
          (al.filter (fun v => strStarts v wikidataBase)).head? = some w := by
  rw [loadP2W_char entries m h p]
  constructor
  · intro h2
    split at h2
    · rename_i hc
      obtain ⟨hmem, hs⟩ := hc
      have hmem2 : p ∈ entries.map Prod.fst ∧ strStarts p pleiadesBase = true := by
        simpa [indexPuris, List.mem_filter] using hmem
      refine ⟨hmem2.1, hmem2.2, ?_⟩
      unfold firstWd at h2
      split at h2
      · exact Option.noConfusion h2
      · rename_i r hf
        split at h2
        · exact Option.noConfusion h2
        · rename_i al ha
          exact ⟨r, al, hf, ha, h2⟩
    · exact Option.noConfusion h2
  · rintro ⟨hmem, hs, r, al, hf, ha, hh⟩
    have hw : firstWd entries p = some w := by
      simp only [firstWd, hf, ha]
      exact hh
    rw [if_pos ⟨by simp [indexPuris, List.mem_filter, hmem, hs], by simp [hw]⟩]
    exact hw

/-- C3: the bidirectional set equals the set of place URIs that are keys of
the place-to-item ReferenceIndex and are cited by at least one item row;
membership does not require the citing item to be the item named in the
place's alignment. -/
theorem claim_C3 (p2w : List (Uri × Uri)) (rows : List Row) (res : RunResult)
    (h : reconcile p2w rows = .ok res) (p : Uri) :
    p ∈ res.st.bidirectional ↔ p ∈ p2w.map Prod.fst ∧ citesPlace rows p := by
  obtain ⟨hrun, hres⟩ := reconcile_elim p2w rows res h
  rw [bidi_char p2w rows initState res.st hrun p]
  simp only [initState, List.not_mem_nil, false_or]
  rw [alistFind_isSome_iff]

/-- C4: only_from_place_authority is disjoint from bidirectional and their
union equals the key set of the place-to-item ReferenceIndex. -/
theorem claim_C4 (p2w : List (Uri × Uri)) (rows : List Row) (res : RunResult)
    (h : reconcile p2w rows = .ok res) :
    (∀ p, ¬ (p ∈ res.only_pleiades ∧ p ∈ res.st.bidirectional)) ∧
      (∀ p, (p ∈ res.only_pleiades ∨ p ∈ res.st.bidirectional) ↔
        p ∈ p2w.map Prod.fst) := by
  obtain ⟨hrun, hres⟩ := reconcile_elim p2w rows res h
  have hbid : ∀ p, p ∈ res.st.bidirectional → p ∈ p2w.map Prod.fst := by
    intro p hp
    rw [bidi_char p2w rows initState res.st hrun p] at hp
    simp only [initState, List.not_mem_nil, false_or] at hp
    exact (alistFind_isSome_iff p2w p).mp hp.1
  have honly : ∀ p, p ∈ res.only_pleiades ↔
      p ∈ p2w.map Prod.fst ∧ p ∉ res.st.bidirectional := by
    intro p
    conv_lhs => rw [hres]
    exact mem_only_pleiades p2w res.st p
  refine ⟨fun p hp => ((honly p).mp hp.1).2 hp.2, fun p => ⟨?_, ?_⟩⟩
  · rintro (h1 | h1)
    · exact ((honly p).mp h1).1
    · exact hbid p h1
  · intro h1
    by_cases h2 : p ∈ res.st.bidirectional
    · exact Or.inr h2
    · exact Or.inl ((honly p).mpr ⟨h1, h2⟩)

/-- C5: only_from_item_authority is disjoint from bidirectional and their
union equals the set of all place URIs appearing in any item's citation
set, which is the set of places cited by some raw row. -/
theorem claim_C5 (p2w : List (Uri × Uri)) (rows : List Row) (res : RunResult)
    (h : reconcile p2w rows = .ok res) :
    (∀ p, ¬ (p ∈ res.only_wikidata ∧ p ∈ res.st.bidirectional)) ∧
      (∀ p, (p ∈ res.only_wikidata ∨ p ∈ res.st.bidirectional) ↔
        citesPlace rows p) := by
  obtain ⟨hrun, hres⟩ := reconcile_elim p2w rows res h
  have hnd : (res.st.w2p.map Prod.fst).Nodup :=
    w2p_keys_nodup p2w rows initState res.st hrun (by simp [initState])
  have honly : ∀ p, p ∈ res.only_wikidata ↔
      (∃ q, p ∈ ((alistFind res.st.w2p q).getD [])) ∧
        p ∉ res.st.bidirectional := by
    intro p
    conv_lhs => rw [hres]
    exact mem_only_wikidata p2w res.st p hnd
  have hcit : ∀ q p, p ∈ ((alistFind res.st.w2p q).getD []) ↔
      citedByItem rows q p := by
    intro q p
    rw [w2p_char p2w rows initState res.st hrun q p]
    simp [initState, alistFind]
  have hex : ∀ p, (∃ q, citedByItem rows q p) ↔ citesPlace rows p := by
    intro p
    constructor
    · rintro ⟨q, r, hr, _, hp⟩
      exact ⟨r, hr, hp⟩
    · rintro ⟨r, hr, hp⟩
      have hwf := rows_wf p2w rows initState res.st hrun r hr
      obtain ⟨q, hq⟩ := Option.isSome_iff_exists.mp hwf.1
      exact ⟨q, r, hr, hq, hp⟩
  have hbid : ∀ p, p ∈ res.st.bidirectional → citesPlace rows p := by
    intro p hp
    rw [bidi_char p2w rows initState res.st hrun p] at hp
    simp only [initState, List.not_mem_nil, false_or] at hp
    exact hp.2
  refine ⟨fun p hp => ((honly p).mp hp.1).2 hp.2, fun p => ⟨?_, ?_⟩⟩
  · rintro (h1 | h1)
    · obtain ⟨⟨q, hq⟩, _⟩ := (honly p).mp h1
      exact (hex p).mp ⟨q, (hcit q p).mp hq⟩
    · exact hbid p h1
  · intro h1
    by_cases h2 : p ∈ res.st.bidirectional
    · exact Or.inr h2
    · refine Or.inl ((honly p).mpr ⟨?_, h2⟩)
      obtain ⟨q, hq⟩ := (hex p).mpr h1
      exact ⟨q, (hcit q p).mpr hq⟩

/-- C8: multi_place_items equals the set of item URIs whose citation set
has more than one distinct place; an item whose citation set has exactly
one place never appears in it. -/
theorem claim_C8 (p2w : List (Uri × Uri)) (rows : List Row) (res : RunResult)
    (h : reconcile p2w rows = .ok res) (q : Uri) :
    q ∈ res.multiple_p4w ↔
      ∃ pa pb, pa ≠ pb ∧ citedByItem rows q pa ∧ citedByItem rows q pb := by
  obtain ⟨hrun, hres⟩ := reconcile_elim p2w rows res h
  have hnd : (res.st.w2p.map Prod.fst).Nodup :=
    w2p_keys_nodup p2w rows initState res.st hrun (by simp [initState])
  have hvnd : ∀ e ∈ res.st.w2p, e.2.Nodup :=
    w2p_vals_nodup p2w rows initState res.st hrun (by simp [initState])
  have hcit : ∀ p, p ∈ ((alistFind res.st.w2p q).getD []) ↔
      citedByItem rows q p := by
    intro p
    rw [w2p_char p2w rows initState res.st hrun q p]
    simp [initState, alistFind]
  constructor
  · intro hq
    rw [hres] at hq
    obtain ⟨e, hew, hlen, heq⟩ := (mem_multiple_p4w p2w res.st q).mp hq
    obtain ⟨q0, l⟩ := e
    have heq2 : q0 = q := heq
    rw [heq2] at hew
    have hfind : alistFind res.st.w2p q = some l := alistFind_of_mem _ _ _ hnd hew
    have hlnd : l.Nodup := by simpa using hvnd (q, l) hew
    obtain ⟨pa, pb, hne, hpa, hpb⟩ := (one_lt_length_iff_of_nodup hlnd).mp hlen
    refine ⟨pa, pb, hne, ?_, ?_⟩
    · exact (hcit pa).mp (by rw [hfind]; simpa using hpa)
    · exact (hcit pb).mp (by rw [hfind]; simpa using hpb)
  · rintro ⟨pa, pb, hne, hpa, hpb⟩
    have h1 := (hcit pa).mpr hpa
    have h2 := (hcit pb).mpr hpb
    cases hfind : alistFind res.st.w2p q with
    | none => rw [hfind] at h1; simp at h1
    | some l =>
      rw [hfind] at h1 h2
      simp only [Option.getD_some] at h1 h2
      have hlnd : l.Nodup := by
        simpa using hvnd (q, l) (mem_of_alistFind _ _ _ hfind)
      have hlen : 1 < l.length :=
        (one_lt_length_iff_of_nodup hlnd).mpr ⟨pa, pb, hne, h1, h2⟩
      rw [hres]
      exact (mem_multiple_p4w p2w res.st q).mpr
        ⟨(q, l), mem_of_alistFind _ _ _ hfind, hlen, rfl⟩

theorem foldl_idxStep_no_cite (p : Uri) :
    ∀ (l : List Row) (acc : Option Uri),
      (∀ r ∈ l, rowPuri? r ≠ some p) → List.foldl (idxStep p) acc l = acc := by
  intro l
  induction l with
  | nil => intro acc _; rfl
  | cons r rs ih =>
    intro acc hno
    rw [List.foldl_cons]
    have hstep : idxStep p acc r = acc := by
      unfold idxStep
      have hb : (rowPuri? r == some p) = false :=
        beq_eq_false_iff_ne.mpr (hno r (List.mem_cons_self r rs))
      rw [hb]
      simp
    rw [hstep, ih acc (fun r2 h2 => hno r2 (List.mem_cons_of_mem r h2))]

/-- C9: for every place URI cited by at least one tabular row, the
place-to-item representative mapping maps it to the item URI of the last
row, in input order, that cites that place. -/
theorem claim_C9 (p2w : List (Uri × Uri)) (rows : List Row) (res : RunResult)
    (h : reconcile p2w rows = .ok res) (p : Uri) (l1 : List Row) (r : Row)
    (l2 : List Row) (hrows : rows = l1 ++ r :: l2)
    (hr : rowPuri? r = some p) (hlast : ∀ r2 ∈ l2, rowPuri? r2 ≠ some p) :
    alistFind res.st.wikidata_dict_index p = r.get "item" := by
  obtain ⟨hrun, hres⟩ := reconcile_elim p2w rows res h
  have hidx := idx_char p2w rows initState res.st hrun p
  have hinit : alistFind initState.wikidata_dict_index p = none := rfl
  rw [hinit, hrows, List.foldl_append, List.foldl_cons] at hidx
  have hstep : idxStep p (List.foldl (idxStep p) none l1) r = r.get "item" := by
    unfold idxStep
    rw [hr]
    simp
  rw [hstep, foldl_idxStep_no_cite p l2 (r.get "item") hlast] at hidx
  exact hidx

/-- C1 (amended): every key of multi_item_places is a place URI seen more
than once across raw input rows and conversely, and its value is exactly
the set of distinct item URIs whose citation set contains that place; the
value set is nonempty but need not have cardinality at least 2: a place
appearing in two rows with the same citing item DOES appear as a key,
with a singleton value. -/
theorem claim_C1_amended (p2w : List (Uri × Uri)) (rows : List Row)
    (res : RunResult) (h : reconcile p2w rows = .ok res) :
    (∀ p, p ∈ res.multicited.map Prod.fst ↔ 2 ≤ citesCount rows p) ∧
      (∀ p s, alistFind res.multicited p = some s →
        (∀ q, q ∈ s ↔ citedByItem rows q p) ∧ s ≠ []) := by
  obtain ⟨hrun, hres⟩ := reconcile_elim p2w rows res h
  have hnd : (res.st.w2p.map Prod.fst).Nodup :=
    w2p_keys_nodup p2w rows initState res.st hrun (by simp [initState])
  have hmc : ∀ p, p ∈ res.st.multicited_puris ↔ 2 ≤ citesCount rows p := by
    intro p
    rw [multi_char p2w rows initState res.st hrun p]
    simp [initState]
  have hcit : ∀ q p, p ∈ ((alistFind res.st.w2p q).getD []) ↔
      citedByItem rows q p := by
    intro q p
    rw [w2p_char p2w rows initState res.st hrun q p]
    simp [initState, alistFind]
  constructor
  · intro p
    conv_lhs => rw [hres]
    rw [multicited_keys]
    exact hmc p
  · intro p s hfind
    rw [hres, multicited_find] at hfind
    split at hfind
    · rename_i hp
      obtain rfl := Option.some.inj hfind
      constructor
      · intro q
        rw [mem_multicited_items res.st p q hnd]
        exact hcit q p
      · have h2 : 2 ≤ citesCount rows p := (hmc p).mp hp
        have h1 : citesPlace rows p :=
          (citesPlace_iff_pos rows p).mpr (by omega)
        obtain ⟨r, hrmem, hrp⟩ := h1
        have hwf := rows_wf p2w rows initState res.st hrun r hrmem
        obtain ⟨q, hq⟩ := Option.isSome_iff_exists.mp hwf.1
        have hqmem : q ∈ (res.st.w2p.filter
            (fun e => decide (p ∈ e.2))).map Prod.fst := by
          rw [mem_multicited_items res.st p q hnd]
          exact (hcit q p).mpr ⟨r, hrmem, hq, hrp⟩
        exact List.ne_nil_of_mem hqmem
    · exact Option.noConfusion hfind

/-! ### Output renaming for wikidata_not_in_pleiades.csv -/

theorem foldl_rename_keys (p : Uri) :
    ∀ (kvs : List (String × String)) (acc : List (String × String)),
      (acc.map Prod.fst ++ (kvs.map Prod.fst).map renameKey).Nodup →
      ((kvs.foldl (fun d kv =>
          alistInsert d (renameKey kv.1) (renameVal p kv.1 kv.2)) acc).map
        Prod.fst) = acc.map Prod.fst ++ (kvs.map Prod.fst).map renameKey := by
  intro kvs
  induction kvs with
  | nil => intro acc _; simp
  | cons kv rest ih =>
    intro acc hnd
    rw [List.foldl_cons]
    simp only [List.map_cons] at hnd ⊢
    have hfresh : renameKey kv.1 ∉ acc.map Prod.fst := by
      rw [List.nodup_append] at hnd
      intro hmem
      exact hnd.2.2 hmem (List.mem_cons_self _ _)
    have hins := alistInsert_of_not_mem acc (renameKey kv.1)
      (renameVal p kv.1 kv.2) hfresh
    have hnd2 : ((acc ++ [(renameKey kv.1, renameVal p kv.1 kv.2)]).map
        Prod.fst ++ (rest.map Prod.fst).map renameKey).Nodup := by
      rw [List.map_append]
      simpa [List.append_assoc] using hnd
    rw [hins, ih _ hnd2]
    simp

/-- The renamed input schema, as computed by `renameKey`. -/
def renamedColumns : List String :=
  ["wikidata_uri", "pleiades_uri", "wikidata_label", "wikidata_description",
   "wikidata_coordinates", "chronique_id", "dare_id", "geonames_id",
   "gettytgn_id", "idaigaz_id", "loc_id", "manto_id", "nomisma_id",
   "topostext_id", "trismegistos_id", "viaf_id", "vici_id", "wikipedia_en"]

theorem inputColumns_rename : inputColumns.map renameKey = renamedColumns := by
  decide

theorem renamedColumns_nodup : (inputColumns.map renameKey).Nodup := by
  decide

theorem renamed_perm : List.Perm renamedColumns outputColumns :=
  List.Perm.swap "pleiades_uri" "wikidata_uri" _

theorem renameRow_keys (p : Uri) (row : Row)
    (h : row.fields.map Prod.fst = inputColumns) :
    (renameRow p row).map Prod.fst = inputColumns.map renameKey := by
  unfold renameRow
  have hside : (([] : List (String × String)).map Prod.fst ++
      (row.fields.map Prod.fst).map renameKey).Nodup := by
    rw [h]
    simpa using renamedColumns_nodup
  rw [foldl_rename_keys p row.fields [] hside, h]
  simp

/-- C2: every place in only_from_item_authority yields exactly one output
row of `wikidata_not_in_pleiades.csv`; that row is the representative item
record renamed by the stated rules, and for a row carrying the input
schema the renamed field names are exactly the declared output columns. -/
theorem claim_C2 (p2w : List (Uri × Uri)) (rows : List Row) (res : RunResult)
    (h : reconcile p2w rows = .ok res) :
    (emitW2P res).length = res.only_wikidata.length ∧
      res.only_wikidata.Nodup ∧
      (∀ p, p ∈ res.only_wikidata → ∃ wuri row,
        alistFind res.st.wikidata_dict_index p = some wuri ∧
          alistFind res.st.wikidata_dict wuri = some row ∧
          emitRowFor res.st p = renameRow p row) ∧
      (∀ (p : Uri) (row : Row), row.fields.map Prod.fst = inputColumns →
        List.Perm ((renameRow p row).map Prod.fst) outputColumns) := by
  obtain ⟨hrun, hres⟩ := reconcile_elim p2w rows res h
  have hnd : (res.st.w2p.map Prod.fst).Nodup :=
    w2p_keys_nodup p2w rows initState res.st hrun (by simp [initState])
  have hci : ∀ p, p ∈ res.st.cited_puris ↔
      (alistFind res.st.wikidata_dict_index p).isSome :=
    cited_iff_idx p2w rows initState res.st hrun
      (by intro p; simp [initState, alistFind])
  have hid : ∀ p q, alistFind res.st.wikidata_dict_index p = some q →
      (alistFind res.st.wikidata_dict q).isSome :=
    idx_dict_inv p2w rows initState res.st hrun
      (by intro p q hpq; simp [initState, alistFind] at hpq)
  refine ⟨by simp [emitW2P], by rw [hres]; exact nodup_only_wikidata p2w res.st,
    ?_, ?_⟩
  · intro p hp
    rw [hres] at hp
    obtain ⟨⟨q, hq⟩, _⟩ := (mem_only_wikidata p2w res.st p hnd).mp hp
    have hcb : citedByItem rows q p := by
      have h2 := w2p_char p2w rows initState res.st hrun q p
      rw [h2] at hq
      simpa [initState, alistFind] using hq
    have hpl : citesPlace rows p := by
      obtain ⟨r, hr, _, hrp⟩ := hcb
      exact ⟨r, hr, hrp⟩
    have hcited : p ∈ res.st.cited_puris := by
      rw [cited_char p2w rows initState res.st hrun p]
      simp [initState, hpl]
    obtain ⟨wuri, hwuri⟩ := Option.isSome_iff_exists.mp ((hci p).mp hcited)
    obtain ⟨row, hrow⟩ := Option.isSome_iff_exists.mp (hid p wuri hwuri)
    refine ⟨wuri, row, hwuri, hrow, ?_⟩
    simp only [emitRowFor, hwuri, hrow]
  · intro p row hschema
    rw [renameRow_keys p row hschema, inputColumns_rename]
    exact renamed_perm

/-- C7: whenever loading fails (malformed JSON index, a place-authority
index record lacking the alignments field, or a tabular row missing the
item or pleiades field), the run raises an error before the output
directory is created and before any output file is written. -/
theorem claim_C7 (input : IndexInput) (rows : List Row)
    (h : (∃ msg, input = .malformed msg) ∨
      (∃ entries p r, input = .parsed entries ∧ p ∈ entries.map Prod.fst ∧
        strStarts p pleiadesBase = true ∧ alistFind entries p = some r ∧
        r.alignments = none) ∨
      (∃ r ∈ rows, r.get "item" = none ∨ r.get "pleiades" = none)) :
    (mainEvents input rows).1 = [] ∧ (mainEvents input rows).2.isSome := by
  rcases h with ⟨msg, rfl⟩ | ⟨entries, p, r, rfl, hmem, hs, hf, ha⟩ |
    ⟨r, hrmem, hbad⟩
  · exact ⟨rfl, rfl⟩
  · have hpuris : p ∈ indexPuris entries := by
      simp [indexPuris, List.mem_filter, hmem, hs]
    obtain ⟨e, he⟩ :=
      collect_error_of_missing entries (indexPuris entries) [] p r hpuris hf ha
    have hl : loadP2W entries = .error e := he
    have hev : mainEvents (.parsed entries) rows = ([], some e) := by
      simp only [mainEvents, hl]
    rw [hev]
    exact ⟨rfl, rfl⟩
  · cases input with
    | malformed msg => exact ⟨rfl, rfl⟩
    | parsed entries =>
      cases hl : loadP2W entries with
      | error e =>
        have hev : mainEvents (.parsed entries) rows = ([], some e) := by
          simp only [mainEvents, hl]
        rw [hev]
        exact ⟨rfl, rfl⟩
      | ok p2w =>
        obtain ⟨e, he⟩ :=
          processRows_error_of_bad p2w rows initState r hrmem hbad
        have hrec : reconcile p2w rows = .error e := by
          unfold reconcile
          rw [he]
        have hev : mainEvents (.parsed entries) rows = ([], some e) := by
          simp only [mainEvents, hl, hrec]
        rw [hev]
        exact ⟨rfl, rfl⟩

/-! ### Rows with an empty pleiades field -/

/-- A row whose `pleiades` field is present but empty. -/
def emptyPidRow (q : Uri) : Row := ⟨[("item", q), ("pleiades", "")]⟩

theorem emptyPidRow_item (q : Uri) : (emptyPidRow q).get "item" = some q := by
  simp [emptyPidRow, Row.get, alistFind]

theorem emptyPidRow_pleiades (q : Uri) :
    (emptyPidRow q).get "pleiades" = some "" := by
  simp [emptyPidRow, Row.get, alistFind]

theorem emptyPidRow_puri (q : Uri) :
    rowPuri? (emptyPidRow q) = some pleiadesBase := by
  rw [rowPuri?, emptyPidRow_pleiades]
  simp [String.append_empty]

/-- C10: a tabular row whose pleiades field is the empty string raises no
error and is not skipped: it contributes the bare place-authority base as
a place URI, which participates in citation, bidirectional and only-set
classification and multiplicity detection like any other place URI; two
such rows with distinct items make the bare base a multi_item_places key
with both items as its value. -/
theorem claim_C10 (p2w : List (Uri × Uri)) (q1 q2 : Uri) (hne : q1 ≠ q2) :
    ∃ res, reconcile p2w [emptyPidRow q1, emptyPidRow q2] = .ok res ∧
      (∀ p, p ∈ res.multicited.map Prod.fst ↔ p = pleiadesBase) ∧
      (∀ s, alistFind res.multicited pleiadesBase = some s →
        (∀ q, q ∈ s ↔ q = q1 ∨ q = q2) ∧ 2 ≤ s.length) ∧
      (pleiadesBase ∈ res.st.bidirectional ↔
        (alistFind p2w pleiadesBase).isSome) ∧
      (pleiadesBase ∈ res.only_wikidata ↔
        ¬ (alistFind p2w pleiadesBase).isSome) := by
  have hwf : ∀ r ∈ [emptyPidRow q1, emptyPidRow q2],
      (r.get "item").isSome ∧ (r.get "pleiades").isSome := by
    intro r hr
    rcases List.mem_cons.mp hr with rfl | hr2
    · exact ⟨by rw [emptyPidRow_item]; rfl, by rw [emptyPidRow_pleiades]; rfl⟩
    · rcases List.mem_cons.mp hr2 with rfl | hr3
      · exact ⟨by rw [emptyPidRow_item]; rfl, by rw [emptyPidRow_pleiades]; rfl⟩
      · simp at hr3
  obtain ⟨st', hst'⟩ :=
    processRows_ok_of_wf p2w [emptyPidRow q1, emptyPidRow q2] initState hwf
  have hrec : reconcile p2w [emptyPidRow q1, emptyPidRow q2] =
      .ok (mkRunResult p2w st') := by
    unfold reconcile
    rw [hst']
  have hnd : (st'.w2p.map Prod.fst).Nodup :=
    w2p_keys_nodup p2w _ initState st' hst' (by simp [initState])
  have hcount : ∀ p, citesCount [emptyPidRow q1, emptyPidRow q2] p =
      if pleiadesBase = p then 2 else 0 := by
    intro p
    by_cases hp : pleiadesBase = p
    · subst hp
      simp [citesCount, emptyPidRow_puri]
    · simp [citesCount, emptyPidRow_puri, hp]
  have hmc : ∀ p, p ∈ st'.multicited_puris ↔ p = pleiadesBase := by
    intro p
    rw [multi_char p2w _ initState st' hst' p]
    simp only [initState, List.not_mem_nil, false_and, false_or]
    rw [hcount p]
    by_cases hp : pleiadesBase = p
    · subst hp
      simp
    · have hp2 : ¬ p = pleiadesBase := fun he => hp he.symm
      simp [hp, hp2]
  have hcit : ∀ q p, p ∈ ((alistFind st'.w2p q).getD []) ↔
      citedByItem [emptyPidRow q1, emptyPidRow q2] q p := by
    intro q p
    rw [w2p_char p2w _ initState st' hst' q p]
    simp [initState, alistFind]
  have hcb : ∀ q, citedByItem [emptyPidRow q1, emptyPidRow q2] q pleiadesBase ↔
      q = q1 ∨ q = q2 := by
    intro q
    constructor
    · rintro ⟨r, hr, hitem, _⟩
      rcases List.mem_cons.mp hr with rfl | hr2
      · rw [emptyPidRow_item] at hitem
        exact Or.inl (Option.some.inj hitem).symm
      · rcases List.mem_cons.mp hr2 with rfl | hr3
        · rw [emptyPidRow_item] at hitem
          exact Or.inr (Option.some.inj hitem).symm
        · simp at hr3
    · rintro (rfl | rfl)
      · exact ⟨emptyPidRow q, List.mem_cons_self _ _,
          emptyPidRow_item q, emptyPidRow_puri q⟩
      · exact ⟨emptyPidRow q, List.mem_cons_of_mem _ (List.mem_cons_self _ _),
          emptyPidRow_item q, emptyPidRow_puri q⟩
  have hcp : citesPlace [emptyPidRow q1, emptyPidRow q2] pleiadesBase :=
    ⟨emptyPidRow q1, List.mem_cons_self _ _, emptyPidRow_puri q1⟩
  have hbd : pleiadesBase ∈ st'.bidirectional ↔
      (alistFind p2w pleiadesBase).isSome := by
    rw [bidi_char p2w _ initState st' hst' pleiadesBase]
    simp only [initState, List.not_mem_nil, false_or]
    simp [hcp]
  refine ⟨mkRunResult p2w st', hrec, ?_, ?_, hbd, ?_⟩
  · intro p
    rw [multicited_keys]
    exact hmc p
  · intro s hfind
    rw [multicited_find] at hfind
    split at hfind
    · obtain rfl := Option.some.inj hfind
      have hqmem : ∀ q, q ∈ (st'.w2p.filter
          (fun e => decide (pleiadesBase ∈ e.2))).map Prod.fst ↔
          q = q1 ∨ q = q2 := by
        intro q
        rw [mem_multicited_items st' pleiadesBase q hnd, hcit q pleiadesBase,
          hcb q]
      refine ⟨hqmem, ?_⟩
      have hsnd : ((st'.w2p.filter
          (fun e => decide (pleiadesBase ∈ e.2))).map Prod.fst).Nodup :=
        hnd.sublist ((List.filter_sublist _).map Prod.fst)
      exact (one_lt_length_iff_of_nodup hsnd).mpr
        ⟨q1, q2, hne, (hqmem q1).mpr (Or.inl rfl), (hqmem q2).mpr (Or.inr rfl)⟩
    · exact Option.noConfusion hfind
  · rw [mem_only_wikidata p2w st' pleiadesBase hnd]
    constructor
    · rintro ⟨_, hnb⟩ hsome
      exact hnb (hbd.mpr hsome)
    · intro hns
      exact ⟨⟨q1, (hcit q1 pleiadesBase).mpr ((hcb q1).mpr (Or.inl rfl))⟩,
        fun hb => hns (hbd.mp hb)⟩

/-! ### Concrete runs used by the witnesses and the C1 counterexample -/

def wEntries : List (Uri × IndexRecord) :=
  [("https://pleiades.stoa.org/places/1",
    ⟨some ["x", "https://www.wikidata.org/wiki/Q1",
      "https://www.wikidata.org/wiki/Q9"]⟩),
   ("https://pleiades.stoa.org/places/2",
    ⟨some ["https://www.wikidata.org/wiki/Q2"]⟩),
   ("other", ⟨none⟩),
   ("https://pleiades.stoa.org/places/3", ⟨some ["y"]⟩)]

def wLoad : List (Uri × Uri) :=
  match loadP2W wEntries with
  | .ok m => m
  | .error _ => []

def wP2w : List (Uri × Uri) :=
  [("https://pleiades.stoa.org/places/1", "https://www.wikidata.org/wiki/Q1"),
   ("https://pleiades.stoa.org/places/2", "https://www.wikidata.org/wiki/Q2")]

def wRow1 : Row :=
  ⟨[("item", "https://www.wikidata.org/wiki/Q1"), ("pleiades", "1")]⟩

def wRow2 : Row :=
  ⟨[("item", "https://www.wikidata.org/wiki/Q3"), ("pleiades", "4")]⟩

def wRow3 : Row :=
  ⟨[("item", "https://www.wikidata.org/wiki/Q3"), ("pleiades", "5")]⟩

def wRow4 : Row :=
  ⟨[("item", "https://www.wikidata.org/wiki/Q4"), ("pleiades", "4")]⟩

def wRows : List Row := [wRow1, wRow2, wRow3, wRow4]

def wRes : RunResult :=
  match reconcile wP2w wRows with
  | .ok r => r
  | .error _ => ⟨initState, [], [], [], []⟩

def c1Rows : List Row :=
  [⟨[("item", "Q5"), ("pleiades", "9")]⟩, ⟨[("item", "Q5"), ("pleiades", "9")]⟩]

def c1Res : RunResult :=
  match reconcile [] c1Rows with
  | .ok r => r
  | .error _ => ⟨initState, [], [], [], []⟩

/-- C1 counterexample: a place cited in two raw rows by the same item does
appear as a multi_item_places key, and its value set has cardinality 1,
not at least 2, contradicting the claim as stated. -/
theorem claim_C1_counterexample :
    reconcile [] c1Rows = .ok c1Res ∧
      c1Res.multicited.map Prod.fst = ["https://pleiades.stoa.org/places/9"] ∧
      alistFind c1Res.multicited "https://pleiades.stoa.org/places/9" =
        some ["Q5"] ∧
      (["Q5"] : List Uri).length < 2 :=
  ⟨rfl, rfl, rfl, by decide⟩

/-- Witness for the amended C1 at a concrete run. -/
theorem claim_C1_amended_witness :
    reconcile wP2w wRows = .ok wRes ∧
      ("https://pleiades.stoa.org/places/4" ∈ wRes.multicited.map Prod.fst ↔
        2 ≤ citesCount wRows "https://pleiades.stoa.org/places/4") :=
  ⟨rfl, (claim_C1_amended wP2w wRows wRes rfl).1
    "https://pleiades.stoa.org/places/4"⟩

def wSchemaRow : Row :=
  ⟨[("item", "https://www.wikidata.org/wiki/Q7"), ("pleiades", "7"),
    ("itemLabel", "L"), ("itemDescription", "D"), ("coordinates", "C"),
    ("chronique_ids", ""), ("dare_ids", ""), ("geonames_ids", ""),
    ("gettytgn_ids", ""), ("idaigaz_ids", ""), ("loc_ids", ""),
    ("manto_ids", ""), ("nomisma_ids", ""), ("topostext_ids", ""),
    ("trismegistos_ids", ""), ("viaf_ids", ""), ("vici_ids", ""),
    ("wikipedia_ens", "W")]⟩

/-- Witness for C2 at a concrete run. -/
theorem claim_C2_witness :
    reconcile wP2w wRows = .ok wRes ∧
      "https://pleiades.stoa.org/places/4" ∈ wRes.only_wikidata ∧
      (∃ wuri row,
        alistFind wRes.st.wikidata_dict_index
          "https://pleiades.stoa.org/places/4" = some wuri ∧
        alistFind wRes.st.wikidata_dict wuri = some row ∧
        emitRowFor wRes.st "https://pleiades.stoa.org/places/4" =
          renameRow "https://pleiades.stoa.org/places/4" row) ∧
      wSchemaRow.fields.map Prod.fst = inputColumns ∧
      List.Perm ((renameRow "https://pleiades.stoa.org/places/7"
        wSchemaRow).map Prod.fst) outputColumns :=
  ⟨rfl, by decide,
   (claim_C2 wP2w wRows wRes rfl).2.2.1 _ (by decide),
   rfl,
   (claim_C2 wP2w wRows wRes rfl).2.2.2 _ wSchemaRow rfl⟩

/-- Witness for C3 at a concrete run. -/
theorem claim_C3_witness :
    reconcile wP2w wRows = .ok wRes ∧
      ("https://pleiades.stoa.org/places/1" ∈ wRes.st.bidirectional ↔
        "https://pleiades.stoa.org/places/1" ∈ wP2w.map Prod.fst ∧
          citesPlace wRows "https://pleiades.stoa.org/places/1") :=
  ⟨rfl, claim_C3 wP2w wRows wRes rfl "https://pleiades.stoa.org/places/1"⟩

/-- Witness for C4 at a concrete run. -/
theorem claim_C4_witness :
    reconcile wP2w wRows = .ok wRes ∧
      (("https://pleiades.stoa.org/places/2" ∈ wRes.only_pleiades ∨
        "https://pleiades.stoa.org/places/2" ∈ wRes.st.bidirectional) ↔
        "https://pleiades.stoa.org/places/2" ∈ wP2w.map Prod.fst) :=
  ⟨rfl, (claim_C4 wP2w wRows wRes rfl).2 "https://pleiades.stoa.org/places/2"⟩

/-- Witness for C5 at a concrete run. -/
theorem claim_C5_witness :
    reconcile wP2w wRows = .ok wRes ∧
      (("https://pleiades.stoa.org/places/4" ∈ wRes.only_wikidata ∨
        "https://pleiades.stoa.org/places/4" ∈ wRes.st.bidirectional) ↔
        citesPlace wRows "https://pleiades.stoa.org/places/4") :=
  ⟨rfl, (claim_C5 wP2w wRows wRes rfl).2 "https://pleiades.stoa.org/places/4"⟩

/-- Witness for C6 at a concrete index. -/
theorem claim_C6_witness :
    loadP2W wEntries = .ok wLoad ∧
      (alistFind wLoad "https://pleiades.stoa.org/places/1" =
          some "https://www.wikidata.org/wiki/Q1" ↔
        "https://pleiades.stoa.org/places/1" ∈ wEntries.map Prod.fst ∧
          strStarts "https://pleiades.stoa.org/places/1" pleiadesBase = true ∧
          ∃ r al, alistFind wEntries "https://pleiades.stoa.org/places/1" =
              some r ∧ r.alignments = some al ∧
            (al.filter (fun v => strStarts v wikidataBase)).head? =
              some "https://www.wikidata.org/wiki/Q1") :=
  ⟨rfl, claim_C6 wEntries wLoad rfl "https://pleiades.stoa.org/places/1"
    "https://www.wikidata.org/wiki/Q1"⟩

/-- Witness for C7: a malformed index aborts the run with no output. -/
theorem claim_C7_witness :
    (mainEvents (.malformed "not json") []).1 = [] ∧
      (mainEvents (.malformed "not json") []).2.isSome :=
  claim_C7 (.malformed "not json") [] (Or.inl ⟨"not json", rfl⟩)

/-- Witness for C8 at a concrete run. -/
theorem claim_C8_witness :
    reconcile wP2w wRows = .ok wRes ∧
      ("https://www.wikidata.org/wiki/Q3" ∈ wRes.multiple_p4w ↔
        ∃ pa pb, pa ≠ pb ∧
          citedByItem wRows "https://www.wikidata.org/wiki/Q3" pa ∧
          citedByItem wRows "https://www.wikidata.org/wiki/Q3" pb) :=
  ⟨rfl, claim_C8 wP2w wRows wRes rfl "https://www.wikidata.org/wiki/Q3"⟩

/-- Witness for C9 at a concrete run: the last row citing places/4 is
`wRow4`, whose item is Q4. -/
theorem claim_C9_witness :
    reconcile wP2w wRows = .ok wRes ∧
      alistFind wRes.st.wikidata_dict_index
        "https://pleiades.stoa.org/places/4" = wRow4.get "item" :=
  ⟨rfl, claim_C9 wP2w wRows wRes rfl "https://pleiades.stoa.org/places/4"
    [wRow1, wRow2, wRow3] wRow4 [] rfl (by decide) (by simp)⟩

/-- Witness for C10 at concrete distinct items. -/
theorem claim_C10_witness :
    ∃ res, reconcile ([] : List (Uri × Uri))
        [emptyPidRow "QA", emptyPidRow "QB"] = .ok res ∧
      (∀ p, p ∈ res.multicited.map Prod.fst ↔ p = pleiadesBase) ∧
      (∀ s, alistFind res.multicited pleiadesBase = some s →
        (∀ q, q ∈ s ↔ q = "QA" ∨ q = "QB") ∧ 2 ≤ s.length) ∧
      (pleiadesBase ∈ res.st.bidirectional ↔
        (alistFind ([] : List (Uri × Uri)) pleiadesBase).isSome) ∧
      (pleiadesBase ∈ res.only_wikidata ↔
        ¬ (alistFind ([] : List (Uri × Uri)) pleiadesBase).isSome) :=
  claim_C10 [] "QA" "QB" (by decide)

end PleiadesWikidata
